import Mathlib

/-!
Shallow embedding of the Confluence space exporter scripts
(`confluence_spaces_exporter.py` and `confluence_spaces_exporter_in_csv.py`).

Each Lean definition below is a direct translation of the corresponding
Python function, at the level of detail the verified claims require:
strings are `String`/`List Char`, the filesystem's attachments directory is
the list of base names written so far, the Python `dict` is an
insertion-ordered association list with in-place overwrite, and the network
is modelled by per-candidate outcomes carried in the input data.
-/

namespace Confluence

/-! ## PathSanitizer: `clean_filename`
Both exporters carry the identical function
(`confluence_spaces_exporter.py` lines 207-218,
`confluence_spaces_exporter_in_csv.py` lines 205-214):

    filename = re.sub(r'[<>:"/\\|?*]', '_', filename)
    filename = re.sub(r'\s+', '_', filename)
    filename = filename.strip('._')
    if len(filename) > 100:
        filename = filename[:100]
    return filename
-/

/-- Characters matched by the character class `[<>:"/\\|?*]`. -/
def invalidChar (c : Char) : Bool :=
  c == '<' || c == '>' || c == ':' || c == '"' || c == '/' || c == '\\' ||
  c == '|' || c == '?' || c == '*'

/-- Characters matched by `\s` (ASCII part of Python's whitespace class),
also the character set stripped by Python's argument-less `str.strip()`. -/
def isPySpace (c : Char) : Bool :=
  c == ' ' || c == '\t' || c == '\n' || c == '\r' || c == '\x0b' || c == '\x0c'

/-- Characters stripped by `str.strip('._')`. -/
def dotUnderscore (c : Char) : Bool := c == '.' || c == '_'

/-- First substitution: every invalid character becomes `'_'`. -/
def replaceInvalid (s : List Char) : List Char :=
  s.map (fun c => if invalidChar c then '_' else c)

/-- Second substitution (`re.sub(r'\s+', '_', ·)`): every maximal run of
whitespace collapses to a single `'_'`. -/
def collapseWS : List Char → List Char
  | [] => []
  | [c] => if isPySpace c then ['_'] else [c]
  | c :: d :: rest =>
    if isPySpace c then
      (if isPySpace d then collapseWS (d :: rest) else '_' :: collapseWS (d :: rest))
    else c :: collapseWS (d :: rest)

/-- Drop the trailing characters satisfying `p` (right half of `str.strip`). -/
def dropTrailing (p : Char → Bool) : List Char → List Char
  | [] => []
  | c :: rest =>
    let r := dropTrailing p rest
    if r.isEmpty && p c then [] else c :: r

/-- Python's `str.strip(chars)`: drop the characters satisfying `p` from both ends. -/
def stripChars (p : Char → Bool) (s : List Char) : List Char :=
  dropTrailing p (s.dropWhile p)

/-- The final guarded truncation `if len(filename) > 100: filename = filename[:100]`. -/
def truncate100 (s : List Char) : List Char := s.take 100

/-- The sanitizer on character lists. -/
def clean_filenameL (s : List Char) : List Char :=
  truncate100 (stripChars dotUnderscore (collapseWS (replaceInvalid s)))

/-- `EnhancedConfluenceScraper.clean_filename` = `ConfluenceCSVScraper.clean_filename`. -/
def clean_filename (s : String) : String := ⟨clean_filenameL s.data⟩

/-- Does the string end with `.` or `_`? (the characters `str.strip('._')` removes). -/
def endsDotUnderscore (s : String) : Bool :=
  (s.data.getLast?.map dotUnderscore).getD false

/-- Base name chosen by `EnhancedConfluenceScraper.save_page` for a top-level page
(line 370): `f"{self.clean_filename(title)}.md"`. -/
def save_page_filename (title : String) : String := clean_filename title ++ ".md"

/-- Concrete input on which the sanitizer is not idempotent: 99 `'a'`s
followed by `"_b"` (101 characters, so the final truncation cuts right
after the `'_'`). -/
def longUnderscoreName : String := ⟨List.replicate 99 'a' ++ ['_', 'b']⟩

/-! ## Markdown cleanup
The Markdown exporter's post-conversion cleanup
(`confluence_spaces_exporter.py` lines 330-332):

    markdown_content = re.sub(r'\n{3,}', '\n\n', markdown_content)
    markdown_content = re.sub(r'\\n', '\n', markdown_content)  # Fix double escapes
    markdown_content = markdown_content.strip()

The CSV exporter's cleanup (`confluence_spaces_exporter_in_csv.py` lines
288-289) is the same without the middle substitution.
-/

/-- Worker for `re.sub(r'\n{3,}', '\n\n', ·)`. The two extra arguments
track the last two emitted characters; an input newline is dropped exactly
when the two previously emitted characters are both newlines, which
replaces every maximal run of 3 or more newlines by exactly 2 of them,
just as the leftmost-greedy regex substitution does. -/
def collapseNLAux : Char → Char → List Char → List Char
  | _, _, [] => []
  | p2, p1, c :: rest =>
    if p2 == '\n' && p1 == '\n' && c == '\n' then collapseNLAux p2 p1 rest
    else c :: collapseNLAux p1 c rest

/-- `re.sub(r'\n{3,}', '\n\n', ·)` (seeded with two non-newline characters). -/
def collapseNL (s : List Char) : List Char := collapseNLAux 'x' 'x' s

/-- `re.sub(r'\\n', '\n', ·)`: each literal backslash-n pair becomes a newline. -/
def fixEscapes : List Char → List Char
  | '\\' :: 'n' :: rest => '\n' :: fixEscapes rest
  | c :: rest => c :: fixEscapes rest
  | [] => []

/-- Python's argument-less `str.strip()`: drop whitespace from both ends. -/
def stripPy (s : List Char) : List Char := dropTrailing isPySpace (s.dropWhile isPySpace)

/-- Cleanup of `EnhancedConfluenceScraper.extract_page_content` (lines 330-332). -/
def cleanup_markdown (s : String) : String := ⟨stripPy (fixEscapes (collapseNL s.data))⟩

/-- Cleanup of `ConfluenceCSVScraper.process_content_to_markdown` (lines 288-289). -/
def cleanup_markdown_csv (s : String) : String := ⟨stripPy (collapseNL s.data)⟩

/-- Does the character list contain a run of 3 or more newlines? -/
def has3 : List Char → Bool
  | a :: b :: c :: t => (a == '\n' && b == '\n' && c == '\n') || has3 (b :: c :: t)
  | _ => false

/-! ## AttachmentResolver: `download_attachment` and the attachment loop
The network is modelled by recording, for each candidate URL, whether
`session.get` raises and which status code it returns otherwise. The
attachments directory is modelled by the list of base names written so
far (in write order), and the Python `dict` `all_attachments` by an
insertion-ordered association list with in-place overwrite.
-/

/-- One candidate download URL together with the outcome `session.get`
would produce for it. -/
structure Candidate where
  url : String
  raises : Bool
  status : Nat
  deriving DecidableEq, Repr

/-- A candidate succeeds when `session.get` does not raise and returns
status 200 (`download_attachment`, lines 174-181). -/
def fetchOk (c : Candidate) : Bool := !c.raises && c.status == 200

/-- The `for url in download_urls: ... break` loop: the first succeeding
candidate wins, later candidates are never attempted. -/
def firstSuccess (cs : List Candidate) : Option Candidate := cs.find? fetchOk

/-- One attachment to download: its `title` (the filename) and its
candidate URL list (already flattened and `None`-filtered, lines 156-168). -/
structure AttachmentJob where
  filename : String
  candidates : List Candidate
  deriving DecidableEq, Repr

/-- Python `dict` assignment `m[k] = v`: overwrite in place if the key is
present (keeping its insertion position), else append. -/
def dictInsert {α : Type} (m : List (String × α)) (k : String) (v : α) :
    List (String × α) :=
  if m.any (fun q => q.1 == k) then m.map (fun q => if q.1 == k then (k, v) else q)
  else m ++ [(k, v)]

/-- Building a Python `dict` from a list of key-value pairs in order. -/
def dictOfList {α : Type} (l : List (String × α)) : List (String × α) :=
  l.foldl (fun m q => dictInsert m q.1 q.2) []

/-- Key membership test `k in m` for the association-list dict model. -/
def mapHasKey (m : List (String × String)) (k : String) : Bool :=
  m.any (fun q => q.1 == k)

/-- `EnhancedConfluenceScraper.download_attachment` (lines 149-205): try the
candidates in order; on success write `attachments/<clean_filename(title)>`
(silently overwriting any existing file of that name — this exporter has no
deduplication loop) and return the path; on failure return `none` (the
Python `None`, logged as a warning). The first component is the updated
set of base names present in the attachments directory. -/
def download_attachment (fs : List String) (j : AttachmentJob) :
    List String × Option String :=
  match firstSuccess j.candidates with
  | some _ =>
    let safe := clean_filename j.filename
    (if fs.contains safe then fs else fs ++ [safe], some ("attachments/" ++ safe))
  | none => (fs, none)

/-- `os.path.splitext` worker: split off the extension at the last dot. -/
def lastDotSplit : List Char → Option (List Char × List Char)
  | [] => none
  | c :: rest =>
    match lastDotSplit rest with
    | some (a, e) => some (c :: a, e)
    | none => if c == '.' then some ([], '.' :: rest) else none

/-- `os.path.splitext` on a base name (the directory part of the path the
code passes, `attachments/`, contains no dot, so splitting the base name
is equivalent): leading dots belong to the root, the extension starts at
the last remaining dot. -/
def splitext (b : String) : String × String :=
  let lead := b.data.takeWhile (fun c => c == '.')
  let rest := b.data.dropWhile (fun c => c == '.')
  match lastDotSplit rest with
  | some (a, e) => (⟨lead ++ a⟩, ⟨e⟩)
  | none => (b, "")

/-- The CSV exporter's `while os.path.exists(file_path)` counter loop
(lines 186-191), with explicit fuel. `fs.length + 1` units of fuel always
suffice: the candidate names `name_1…`, `name_2…`, … are pairwise distinct,
so among the first `fs.length + 1` of them one is not yet on disk. -/
def dedupLoop (fs : List String) (name ext : String) : Nat → Nat → String
  | _, 0 => name ++ ext
  | k, Nat.succ fuel =>
    let cand := name ++ "_" ++ toString k ++ ext
    if fs.contains cand then dedupLoop fs name ext (k + 1) fuel else cand

/-- Deduplicated target base name for the CSV exporter: the sanitized name
itself if free, else `name_<k><ext>` for the first free `k ≥ 1`. -/
def dedupTarget (fs : List String) (safe : String) : String :=
  if fs.contains safe then
    let pair := splitext safe
    dedupLoop fs pair.1 pair.2 1 (fs.length + 1)
  else safe

/-- `ConfluenceCSVScraper.download_attachment` (lines 146-203): same
candidate loop, but with the duplicate-handling counter before writing. -/
def download_attachment_csv (fs : List String) (j : AttachmentJob) :
    List String × Option String :=
  match firstSuccess j.candidates with
  | some _ =>
    let base := dedupTarget fs (clean_filename j.filename)
    (fs ++ [base], some ("attachments/" ++ base))
  | none => (fs, none)

/-- State of the Markdown exporter's attachment phase: files written so far
and the `all_attachments` dict (raw filename → local path). -/
structure ScrapeState where
  files : List String
  allAttachments : List (String × String)
  deriving DecidableEq, Repr

/-- Body of the attachment loop in `EnhancedConfluenceScraper.scrape_space`
(lines 418-423): download, and on success record
`all_attachments[filename] = file_path` under the RAW filename. -/
def scrape_space_step (st : ScrapeState) (j : AttachmentJob) : ScrapeState :=
  let res := download_attachment st.files j
  match res.2 with
  | some p => { files := res.1, allAttachments := dictInsert st.allAttachments j.filename p }
  | none => { st with files := res.1 }

/-- The whole attachment phase of `EnhancedConfluenceScraper.scrape_space`,
over the per-page attachment lists flattened in iteration order. -/
def scrape_space_attachments (jobs : List AttachmentJob) : ScrapeState :=
  jobs.foldl scrape_space_step ⟨[], []⟩

/-- The files written by the CSV exporter's attachment downloads, in order. -/
def scrape_space_csv_files (jobs : List AttachmentJob) : List String :=
  jobs.foldl (fun fs j => (download_attachment_csv fs j).1) []

/-- A candidate URL that succeeds. -/
def okCandidate : Candidate := ⟨"https://example/dl/1", false, 200⟩

/-- A later candidate URL that would also succeed (must be skipped). -/
def okCandidateLater : Candidate := ⟨"https://example/dl/2", false, 200⟩

/-- A candidate URL answering 404. -/
def badCandidate : Candidate := ⟨"https://example/dl/bad", false, 404⟩

/-- A candidate URL on which `session.get` raises. -/
def raisingCandidate : Candidate := ⟨"https://example/dl/raise", true, 200⟩

/-- An attachment named `logo.png` whose download succeeds. -/
def logoJob : AttachmentJob := ⟨"logo.png", [okCandidate]⟩

/-- An attachment none of whose candidates succeeds. -/
def failJob : AttachmentJob := ⟨"missing.png", [raisingCandidate, badCandidate]⟩

/-! ## MacroTranspiler: the `ac:image` rewrite
`EnhancedConfluenceScraper.process_confluence_content`, lines 227-239:

    for img_macro in soup.find_all('ac:image'):
        attachment_elem = img_macro.find('ri:attachment')
        if attachment_elem:
            filename = attachment_elem.get('ri:filename')
            if filename and filename in attachments_map:
                rel_path = f"attachments/{filename}"
                img_tag = soup.new_tag('img', src=rel_path, alt=filename)
                img_macro.replace_with(img_tag)
            else:
                img_macro.replace_with(f"[Image: {filename}]" if filename else "[Image: Missing]")

Note the absent `else` on `if attachment_elem`: an `ac:image` with no
`ri:attachment` child is left untouched.
-/

/-- An `ac:image` node: `attachmentRef = none` means no `ri:attachment`
child; `some none` means the child exists but has no `ri:filename`
attribute; `some (some f)` means the child carries filename `f`. -/
structure ImageEmbed where
  attachmentRef : Option (Option String)
  deriving DecidableEq, Repr

/-- What the loop body does to one `ac:image` node. -/
inductive ImageRewrite
  | unchanged
  | imageTag (src alt : String)
  | literal (text : String)
  deriving DecidableEq, Repr

/-- The image-rewrite step. Python's `if filename` truthiness makes the
empty-string filename take the `[Image: Missing]` branch. -/
def rewrite_image (m : List (String × String)) (e : ImageEmbed) : ImageRewrite :=
  match e.attachmentRef with
  | none => .unchanged
  | some fnOpt =>
    match fnOpt with
    | some f =>
      if f != "" && mapHasKey m f then .imageTag ("attachments/" ++ f) f
      else if f != "" then .literal ("[Image: " ++ f ++ "]")
      else .literal "[Image: Missing]"
    | none => .literal "[Image: Missing]"

/-- The local path `download_attachment` stores an attachment under,
relative to the space output directory (lines 188-193). -/
def downloadFilePath (filename : String) : String :=
  "attachments/" ++ clean_filename filename

/-! ## Content-extraction boundary (claim C8)
`process_confluence_content` (lines 220-226) guards empty input and
otherwise runs the BeautifulSoup rewrite; `extract_page_content`
(lines 304-334) guards an absent/empty `body.storage.value` — returning
empty content with a warning — and otherwise converts and cleans up.
BeautifulSoup's `html.parser` is lenient: it never raises on malformed
markup, so the parse-rewrite-serialize stage and the `markdownify`
conversion are modelled as arbitrary TOTAL string functions supplied as
parameters. -/

/-- `process_confluence_content` with the parse-rewrite-serialize stage
abstracted into the total function `rewriteSerialize`. -/
def process_confluence_content (rewriteSerialize : String → String)
    (content_html : String) : String :=
  if content_html = "" then "" else rewriteSerialize content_html

/-- `extract_page_content`, returning `(title, markdown, warned)`.
`bodyValue` is `page_data['body']['storage']['value']` (absent keys give
`''` via `.get`). -/
def extract_page_content (rewriteSerialize mdConvert : String → String)
    (title : String) (bodyValue : Option String) : String × String × Bool :=
  let content_html := bodyValue.getD ""
  if content_html = "" then (title, "", true)
  else
    (title,
     cleanup_markdown (mdConvert (process_confluence_content rewriteSerialize content_html)),
     false)

/-! ## HierarchyBuilder and the global ordering
`EnhancedConfluenceScraper.build_hierarchy` (lines 336-358) and the sort
and index generation in `scrape_space` (lines 436-473). Python's `sorted`
is a stable sort by the key `(x['level'], x['path'])`; tuple and list
comparison is lexicographic, string comparison is by code point. We model
the sort with `List.insertionSort`, which is also stable. -/

/-- An entry of a page's `ancestors` list (id and title). -/
structure AncestorRef where
  id : String
  title : String
  deriving DecidableEq, Repr

/-- A page record, as far as the hierarchy is concerned. -/
structure Page where
  id : String
  title : String
  ancestors : List AncestorRef
  deriving DecidableEq, Repr

/-- One value of the `hierarchy` dict built by `build_hierarchy`. -/
structure HEntry where
  page : Page
  path : List String
  level : Nat
  deriving DecidableEq, Repr

/-- The keys of `page_lookup = {page['id']: page for page in pages}`. -/
def pageIds (pages : List Page) : List String := pages.map (fun p => p.id)

/-- The loop body of `build_hierarchy`: keep the titles of the ancestors
whose id is in `page_lookup`, append the page's own title, and set
`level = len(ancestors)` (the UNFILTERED length). -/
def build_entry (ids : List String) (p : Page) : HEntry :=
  { page := p
    path := (p.ancestors.filter (fun a => ids.contains a.id)).map (fun a => a.title)
      ++ [p.title]
    level := p.ancestors.length }

/-- `build_hierarchy` (lines 336-358) as the dict `page_id → entry`. -/
def build_hierarchy (pages : List Page) : List (String × HEntry) :=
  dictOfList (pages.map (fun p => (p.id, build_entry (pageIds pages) p)))

/-- Code-point comparison of characters (Python compares strings by code
point). -/
def charLtB (a b : Char) : Bool := a.toNat < b.toNat

/-- Python's `<` on strings: lexicographic by code point; a proper prefix
is smaller. -/
def strLtL : List Char → List Char → Bool
  | [], [] => false
  | [], _ :: _ => true
  | _ :: _, [] => false
  | a :: as, b :: bs =>
    if charLtB a b then true
    else if charLtB b a then false
    else strLtL as bs

/-- Python's `<` on strings. -/
def strLt (a b : String) : Bool := strLtL a.data b.data

/-- Python's `<=` on lists of strings (lexicographic, as used for the
`path` component of the sort key). -/
def pathLeB : List String → List String → Bool
  | [], _ => true
  | _ :: _, [] => false
  | a :: as, b :: bs =>
    if strLt a b then true
    else if strLt b a then false
    else pathLeB as bs

/-- Python's `<=` on the sort key tuple `(level, path)`. -/
def keyLe (k1 k2 : Nat × List String) : Bool :=
  if k1.1 < k2.1 then true
  else if k2.1 < k1.1 then false
  else pathLeB k1.2 k2.2

/-- The sort key `lambda x: (x['level'], x['path'])` (line 438). -/
def entryKey (e : HEntry) : Nat × List String := (e.level, e.path)

/-- Key comparison lifted to hierarchy entries. -/
def entryLe (e1 e2 : HEntry) : Prop := keyLe (entryKey e1) (entryKey e2) = true

instance : DecidableRel entryLe := fun e1 e2 => by
  unfold entryLe
  infer_instance

/-- `sorted_pages = sorted(hierarchy.values(), key=lambda x: (x['level'], x['path']))`
(line 438), modelled by the stable `insertionSort`. -/
def sorted_pages (pages : List Page) : List HEntry :=
  List.insertionSort entryLe ((build_hierarchy pages).map (fun q => q.2))

/-- `indent = "  " * level` (line 471). -/
def index_indent (level : Nat) : String := String.join (List.replicate level "  ")

/-- One line of the `## Page Hierarchy:` index (lines 471-473). -/
def index_line (e : HEntry) : String :=
  index_indent e.level ++ "- [" ++ e.page.title ++ "](./" ++
    String.intercalate "/" (e.path.map clean_filename) ++ ".md)"

/-- The hierarchy section of the generated `README.md`, in walk order. -/
def space_index_lines (pages : List Page) : List String :=
  (sorted_pages pages).map index_line

/-- Demo page `Root` (no ancestors). -/
def rootPage : Page := ⟨"1", "Root", []⟩

/-- Demo page `Child` (ancestor `Root`). -/
def childPage : Page := ⟨"2", "Child", [⟨"1", "Root"⟩]⟩

/-- Demo page `Grandchild` (ancestors `Root`, `Child`). -/
def grandchildPage : Page := ⟨"3", "Grandchild", [⟨"1", "Root"⟩, ⟨"2", "Child"⟩]⟩

/-- The three demo pages in one arrival order. -/
def demoArrivalA : List Page := [grandchildPage, rootPage, childPage]

/-- The three demo pages in another arrival order. -/
def demoArrivalB : List Page := [childPage, grandchildPage, rootPage]

/-- A page whose ancestor list names one id (`"404"`) that is absent from
the document set. -/
def danglingPage : Page := ⟨"9", "Lost Child", [⟨"1", "Root"⟩, ⟨"404", "Vanished"⟩]⟩

/-! ### Character-set facts about the sanitizer's intermediate stages -/

theorem sanitizer_example_space : clean_filename "a b" = "a_b" := by decide

theorem sanitizer_example_invalid : clean_filename "my file?.png" = "my_file_.png" := by
  decide

theorem sanitizer_example_dots : clean_filename "._hello._" = "hello" := by decide

theorem invalidChar_underscore : invalidChar '_' = false := by decide

theorem isPySpace_underscore : isPySpace '_' = false := by decide

theorem mem_replaceInvalid_not_invalid {c : Char} {s : List Char}
    (h : c ∈ replaceInvalid s) : invalidChar c = false := by
  rcases List.mem_map.1 h with ⟨a, _, ha⟩
  by_cases hi : invalidChar a
  · simp [hi] at ha; subst ha; decide
  · simp [hi] at ha; subst ha; simpa using hi

theorem mem_collapseWS {c : Char} : ∀ {s : List Char},
    c ∈ collapseWS s → (c ∈ s ∧ isPySpace c = false) ∨ c = '_'
  | [], h => by simp [collapseWS] at h
  | [d], h => by
    by_cases hd : isPySpace d
    · simp [collapseWS, hd] at h; right; exact h
    · simp [collapseWS, hd] at h; subst h
      exact Or.inl ⟨by simp, by simpa using hd⟩
  | d :: e :: rest, h => by
    by_cases hd : isPySpace d
    · by_cases he : isPySpace e
      · simp only [collapseWS, hd, he, if_true] at h
        rcases mem_collapseWS h with ⟨h1, h2⟩ | h3
        · exact Or.inl ⟨List.mem_cons_of_mem _ h1, h2⟩
        · exact Or.inr h3
      · simp only [collapseWS, hd, he, if_true, if_false] at h
        cases h with
        | head => exact Or.inr rfl
        | tail _ hm =>
          rcases mem_collapseWS hm with ⟨h1, h2⟩ | h3
          · exact Or.inl ⟨List.mem_cons_of_mem _ h1, h2⟩
          · exact Or.inr h3
    · simp only [collapseWS, hd, if_false] at h
      cases h with
      | head => exact Or.inl ⟨by simp, by simpa using hd⟩
      | tail _ hm =>
        rcases mem_collapseWS hm with ⟨h1, h2⟩ | h3
        · exact Or.inl ⟨List.mem_cons_of_mem _ h1, h2⟩
        · exact Or.inr h3

theorem mem_collapseWS_not_space {c : Char} {s : List Char}
    (h : c ∈ collapseWS s) : isPySpace c = false := by
  rcases mem_collapseWS h with ⟨_, h2⟩ | h3
  · exact h2
  · subst h3; decide

/-- The `dropTrailing` result is a left factor of its input. -/
theorem dropTrailing_append (p : Char → Bool) :
    ∀ s : List Char, ∃ post, s = dropTrailing p s ++ post
  | [] => ⟨[], rfl⟩
  | c :: rest => by
    rcases dropTrailing_append p rest with ⟨post, hpost⟩
    by_cases hc : (dropTrailing p rest).isEmpty && p c
    · refine ⟨c :: rest, ?_⟩
      simp [dropTrailing, hc]
    · refine ⟨post, ?_⟩
      simp only [dropTrailing, hc, if_false]
      simpa using congrArg (c :: ·) hpost

theorem mem_dropTrailing {p : Char → Bool} {c : Char} {s : List Char}
    (h : c ∈ dropTrailing p s) : c ∈ s := by
  rcases dropTrailing_append p s with ⟨post, hpost⟩
  rw [hpost]
  exact List.mem_append_left _ h

theorem mem_stripChars {p : Char → Bool} {c : Char} {s : List Char}
    (h : c ∈ stripChars p s) : c ∈ s := by
  have h1 : c ∈ s.dropWhile p := mem_dropTrailing h
  have h2 := List.takeWhile_append_dropWhile p s
  rw [← h2]
  exact List.mem_append_right _ h1

/-- Every character of a sanitized name is a character of the collapse stage. -/
theorem mem_clean_filenameL {c : Char} {s : List Char}
    (h : c ∈ clean_filenameL s) : c ∈ collapseWS (replaceInvalid s) := by
  have h1 : c ∈ stripChars dotUnderscore (collapseWS (replaceInvalid s)) :=
    List.take_subset _ _ h
  exact mem_stripChars h1

theorem clean_filenameL_no_invalid {c : Char} {s : List Char}
    (h : c ∈ clean_filenameL s) : invalidChar c = false := by
  rcases mem_collapseWS (mem_clean_filenameL h) with ⟨h1, _⟩ | h3
  · exact mem_replaceInvalid_not_invalid h1
  · subst h3; decide

theorem clean_filenameL_no_space {c : Char} {s : List Char}
    (h : c ∈ clean_filenameL s) : isPySpace c = false :=
  mem_collapseWS_not_space (mem_clean_filenameL h)

theorem clean_filenameL_length_le (s : List Char) :
    (clean_filenameL s).length ≤ 100 := by
  unfold clean_filenameL truncate100
  exact List.length_take_le 100 _

/-! ### Fixed points of the individual sanitizer stages -/

theorem replaceInvalid_eq_self {s : List Char}
    (h : ∀ c ∈ s, invalidChar c = false) : replaceInvalid s = s := by
  unfold replaceInvalid
  have : ∀ c ∈ s, (if invalidChar c then '_' else c) = id c := by
    intro c hc; simp [h c hc]
  rw [List.map_congr_left this, List.map_id]

theorem collapseWS_eq_self : ∀ {s : List Char},
    (∀ c ∈ s, isPySpace c = false) → collapseWS s = s
  | [], _ => rfl
  | [c], h => by
    have := h c (by simp)
    simp [collapseWS, this]
  | c :: d :: rest, h => by
    have hc := h c (by simp)
    have htail : ∀ e ∈ d :: rest, isPySpace e = false := by
      intro e he; exact h e (List.mem_cons_of_mem _ he)
    simp [collapseWS, hc, collapseWS_eq_self htail]

theorem dropTrailing_eq_self : ∀ {s : List Char} {p : Char → Bool},
    (∀ c, s.getLast? = some c → p c = false) → dropTrailing p s = s
  | [], _, _ => rfl
  | [c], p, h => by
    have hc : p c = false := h c rfl
    simp [dropTrailing, hc]
  | c :: d :: rest, p, h => by
    have htail : ∀ e, (d :: rest).getLast? = some e → p e = false := by
      intro e he
      exact h e (by rw [← he]; rfl)
    have hrec : dropTrailing p (d :: rest) = d :: rest := dropTrailing_eq_self htail
    have he : dropTrailing p (c :: d :: rest)
        = if (dropTrailing p (d :: rest)).isEmpty && p c then []
          else c :: dropTrailing p (d :: rest) := rfl
    rw [he, hrec]
    simp

theorem dropTrailing_length_lt : ∀ {s : List Char} {p : Char → Bool} {c : Char},
    s.getLast? = some c → p c = true → (dropTrailing p s).length < s.length
  | [], _, _, h, _ => by simp at h
  | [a], p, c, h, hp => by
    have hac : a = c := by simpa using h
    subst hac
    have he : dropTrailing p [a]
        = if (dropTrailing p ([] : List Char)).isEmpty && p a then []
          else a :: dropTrailing p ([] : List Char) := rfl
    rw [he]
    simp [dropTrailing, hp]
  | a :: b :: rest, p, c, h, hp => by
    have htail : (b :: rest).getLast? = some c := by rw [← h]; rfl
    have hrec := dropTrailing_length_lt htail hp
    have he : dropTrailing p (a :: b :: rest)
        = if (dropTrailing p (b :: rest)).isEmpty && p a then []
          else a :: dropTrailing p (b :: rest) := rfl
    rw [he]
    by_cases hcond : (dropTrailing p (b :: rest)).isEmpty && p a
    · rw [if_pos hcond]
      simp
    · rw [if_neg hcond]
      simpa using hrec

/-- The head of `dropTrailing p (c :: rest)` is `c`, unless the result is empty. -/
theorem dropTrailing_head (p : Char → Bool) (c : Char) (rest : List Char) :
    dropTrailing p (c :: rest) = [] ∨
    ∃ t, dropTrailing p (c :: rest) = c :: t := by
  have he : dropTrailing p (c :: rest)
      = if (dropTrailing p rest).isEmpty && p c then []
        else c :: dropTrailing p rest := rfl
  by_cases hcond : (dropTrailing p rest).isEmpty && p c
  · left; rw [he, if_pos hcond]
  · right; exact ⟨_, by rw [he, if_neg hcond]⟩

/-- The head of `dropWhile p s` does not satisfy `p`, unless the result is empty. -/
theorem dropWhile_head (p : Char → Bool) :
    ∀ s : List Char, s.dropWhile p = [] ∨
      ∃ c t, s.dropWhile p = c :: t ∧ p c = false
  | [] => Or.inl rfl
  | c :: rest => by
    by_cases hc : p c
    · rw [List.dropWhile_cons_of_pos hc]
      exact dropWhile_head p rest
    · right
      exact ⟨c, rest, List.dropWhile_cons_of_neg hc, by simpa using hc⟩

theorem length_dropWhile_le (p : Char → Bool) (s : List Char) :
    (s.dropWhile p).length ≤ s.length := by
  have h := congrArg List.length (List.takeWhile_append_dropWhile p s)
  rw [List.length_append] at h
  omega

/-- Structure of a sanitized name: empty, or its head is not `.`/`_`. -/
theorem clean_filenameL_head (x : List Char) :
    clean_filenameL x = [] ∨
    ∃ c t, clean_filenameL x = c :: t ∧ dotUnderscore c = false := by
  unfold clean_filenameL stripChars truncate100
  set y := collapseWS (replaceInvalid x) with hy
  rcases dropWhile_head dotUnderscore y with h | ⟨c, t, h, hc⟩
  · left; rw [h]; rfl
  · rw [h]
    rcases dropTrailing_head dotUnderscore c t with h2 | ⟨t', h2⟩
    · left; rw [h2]; rfl
    · right
      refine ⟨c, t'.take 99, ?_, hc⟩
      rw [h2]
      rfl

theorem clean_filenameL_idem {x : List Char}
    (h : (((clean_filenameL x).getLast?.map dotUnderscore).getD false) = false) :
    clean_filenameL (clean_filenameL x) = clean_filenameL x := by
  set s := clean_filenameL x with hs
  have h1 : replaceInvalid s = s :=
    replaceInvalid_eq_self (fun c hc => clean_filenameL_no_invalid (hs ▸ hc))
  have h2 : collapseWS s = s :=
    collapseWS_eq_self (fun c hc => clean_filenameL_no_space (hs ▸ hc))
  have h3 : s.dropWhile dotUnderscore = s := by
    rcases clean_filenameL_head x with he | ⟨c, t, he, hc⟩
    · rw [← hs] at he; rw [he]; rfl
    · rw [← hs] at he; rw [he]
      exact List.dropWhile_cons_of_neg (by simp [hc])
  have h4 : dropTrailing dotUnderscore s = s := by
    apply dropTrailing_eq_self
    intro c hc
    rw [hc] at h
    simpa using h
  have h5 : truncate100 s = s := by
    unfold truncate100
    exact List.take_of_length_le (hs ▸ clean_filenameL_length_le x)
  show truncate100 (stripChars dotUnderscore (collapseWS (replaceInvalid s))) = s
  rw [h1, h2]
  unfold stripChars
  rw [h3, h4, h5]

theorem getLast?_append_right {α : Type} {l l' : List α} (h : l' ≠ []) :
    (l ++ l').getLast? = l'.getLast? := by
  rw [List.getLast?_append]
  cases hl : l'.getLast? with
  | none =>
    exfalso
    exact h (by simpa using hl)
  | some a => rfl

theorem clean_filenameL_not_idem {x : List Char} {c : Char}
    (hlast : (clean_filenameL x).getLast? = some c)
    (hc : dotUnderscore c = true) :
    clean_filenameL (clean_filenameL x) ≠ clean_filenameL x := by
  set s := clean_filenameL x with hs
  have h1 : replaceInvalid s = s :=
    replaceInvalid_eq_self (fun e he => clean_filenameL_no_invalid (hs ▸ he))
  have h2 : collapseWS s = s :=
    collapseWS_eq_self (fun e he => clean_filenameL_no_space (hs ▸ he))
  have hne : s ≠ [] := by
    intro h0
    rw [h0] at hlast
    simp at hlast
  have hlen : (stripChars dotUnderscore s).length < s.length := by
    unfold stripChars
    rcases dropWhile_head dotUnderscore s with hdrop | ⟨a, t, hdrop, _⟩
    · rw [hdrop]
      have : 0 < s.length := List.length_pos.2 hne
      simpa using this
    · have hlast2 : (s.dropWhile dotUnderscore).getLast? = some c := by
        have hne' : s.dropWhile dotUnderscore ≠ [] := by
          rw [hdrop]; simp
        rw [← @getLast?_append_right _ (s.takeWhile dotUnderscore) _ hne',
          List.takeWhile_append_dropWhile]
        exact hlast
      calc (dropTrailing dotUnderscore (s.dropWhile dotUnderscore)).length
          < (s.dropWhile dotUnderscore).length := dropTrailing_length_lt hlast2 hc
        _ ≤ s.length := length_dropWhile_le _ _
  intro heq
  have hle : (clean_filenameL s).length ≤ (stripChars dotUnderscore s).length := by
    show (truncate100 (stripChars dotUnderscore (collapseWS (replaceInvalid s)))).length ≤ _
    rw [h1, h2]
    unfold truncate100
    rw [List.length_take]
    exact min_le_right _ _
  rw [heq] at hle
  omega

/-! ### Claim C2 (sanitizer totality and idempotence) and C10 (output shape) -/

set_option maxRecDepth 8000 in
/-- Claim C2, counterexample: `clean_filename` is not idempotent. On the
101-character input `longUnderscoreName`, one application yields 99 `'a'`s
followed by `'_'` (truncation to 100 happens after stripping), and a second
application strips that exposed trailing underscore. -/
theorem C2_sanitize_not_idempotent_cex :
    clean_filename (clean_filename longUnderscoreName) ≠
      clean_filename longUnderscoreName := by decide

/-- Claim C2, amended: `clean_filename` is total (it is a Lean function on
all of `String`, including the empty string and strings longer than 100
characters, whose output it truncates), and it is idempotent exactly on
those inputs whose sanitized form does not end in `'.'` or `'_'` — the
final truncation runs after stripping, so it can expose such a trailing
character, which only a second pass removes. -/
theorem C2_sanitize_idempotent_iff (x : String) :
    clean_filename (clean_filename x) = clean_filename x ↔
      endsDotUnderscore (clean_filename x) = false := by
  have hdata : (clean_filename x).data = clean_filenameL x.data := rfl
  constructor
  · intro h
    by_contra hend
    have hend' : endsDotUnderscore (clean_filename x) = true := by
      revert hend; cases endsDotUnderscore (clean_filename x) <;> simp
    unfold endsDotUnderscore at hend'
    rw [hdata] at hend'
    cases hl : (clean_filenameL x.data).getLast? with
    | none => rw [hl] at hend'; simp at hend'
    | some c =>
      rw [hl] at hend'
      have hend'' : dotUnderscore c = true := by simpa using hend'
      have hne := clean_filenameL_not_idem hl hend''
      apply hne
      exact congrArg String.data h
  · intro h
    unfold endsDotUnderscore at h
    rw [hdata] at h
    have hlist := @clean_filenameL_idem x.data h
    show String.mk (clean_filenameL (clean_filename x).data) = clean_filename x
    rw [hdata, hlist]
    rfl

/-- Claim C10: the sanitizer always returns at most 100 characters, none of
them from `<>:"/\|?*` and none of them whitespace; on inputs made of dots,
underscores and whitespace only (and on the empty string) it returns the
empty string, which `save_page` then turns into the file name `".md"`. -/
theorem C10_sanitize_output_shape :
    (∀ x : String, (clean_filename x).length ≤ 100 ∧
      ∀ c ∈ (clean_filename x).data, invalidChar c = false ∧ isPySpace c = false) ∧
    clean_filename "" = "" ∧
    clean_filename "._ " = "" ∧
    save_page_filename "._ " = ".md" ∧
    save_page_filename "" = ".md" := by
  refine ⟨fun x => ⟨?_, fun c hc => ⟨?_, ?_⟩⟩, by decide, by decide, by decide, by decide⟩
  · show (clean_filenameL x.data).length ≤ 100
    exact clean_filenameL_length_le x.data
  · exact clean_filenameL_no_invalid hc
  · exact clean_filenameL_no_space hc

/-! ### Claim C1: duplicate filenames across documents -/

/-- Claim C1, counterexample: in the Markdown exporter
(`confluence_spaces_exporter.py`), downloading two attachments both named
`logo.png` does NOT produce two files `logo.png` and `logo_1.png`:
`download_attachment` has no deduplication loop, so the second download
overwrites the first and only one file exists, and the resolved map holds
a single entry. -/
theorem C1_no_dedup_in_md_exporter_cex :
    (scrape_space_attachments [logoJob, logoJob]).files = ["logo.png"] ∧
    "logo_1.png" ∉ (scrape_space_attachments [logoJob, logoJob]).files ∧
    (scrape_space_attachments [logoJob, logoJob]).allAttachments
      = [("logo.png", "attachments/logo.png")] := by decide

/-- Claim C1, amended: only the CSV exporter's `download_attachment` has
the `_<n>` deduplication loop: there, two attachments both named
`logo.png` yield the two distinct files `logo.png` and `logo_1.png`. In
the Markdown exporter — the one that builds the resolved
filename-to-local-path map — both downloads write to the same path
`attachments/logo.png` (the second overwrites the first on disk), and the
map ends up with a single entry for the bare filename, whose path is that
shared path, its contents those of the last write. -/
theorem C1_duplicate_filename_behavior :
    scrape_space_csv_files [logoJob, logoJob] = ["logo.png", "logo_1.png"] ∧
    (scrape_space_attachments [logoJob, logoJob]).files = ["logo.png"] ∧
    (scrape_space_attachments [logoJob, logoJob]).allAttachments
      = [("logo.png", "attachments/logo.png")] := by decide

/-! ### Claim C5: the image-embed rewrite -/

/-- Claim C5, counterexample: an `ac:image` node carrying no
`ri:attachment` child (hence no filename at all) is left unchanged by
`process_confluence_content` — it is NOT rewritten to `[Image: Missing]`
(the `if attachment_elem:` has no `else` branch). -/
theorem C5_refless_image_not_rewritten_cex :
    rewrite_image [("diagram.png", "attachments/diagram.png")] ⟨none⟩
        = ImageRewrite.unchanged ∧
    rewrite_image [("diagram.png", "attachments/diagram.png")] ⟨none⟩
        ≠ ImageRewrite.literal "[Image: Missing]" := by decide

/-- Claim C5, amended: for every image-embed node that carries an
`ri:attachment` reference: a nonempty filename found in the resolved map
is rewritten to an image reference `attachments/<filename>` with alt-text
the filename; a nonempty filename absent from the map becomes the literal
`[Image: <filename>]`; a reference with a missing (or empty, by Python
truthiness) filename becomes `[Image: Missing]`. An embed with no
`ri:attachment` reference at all is left unchanged. -/
theorem C5_image_rewrite_cases (m : List (String × String)) (f : String) :
    (f ≠ "" → mapHasKey m f = true →
      rewrite_image m ⟨some (some f)⟩ = ImageRewrite.imageTag ("attachments/" ++ f) f) ∧
    (f ≠ "" → mapHasKey m f = false →
      rewrite_image m ⟨some (some f)⟩ = ImageRewrite.literal ("[Image: " ++ f ++ "]")) ∧
    rewrite_image m ⟨some none⟩ = ImageRewrite.literal "[Image: Missing]" ∧
    rewrite_image m ⟨some (some "")⟩ = ImageRewrite.literal "[Image: Missing]" ∧
    rewrite_image m ⟨none⟩ = ImageRewrite.unchanged := by
  refine ⟨?_, ?_, rfl, ?_, rfl⟩
  · intro h1 h2
    have hb : (f != "") = true := by simpa using h1
    simp [rewrite_image, hb, h2]
  · intro h1 h2
    have hb : (f != "") = true := by simpa using h1
    simp [rewrite_image, hb, h2]
  · simp [rewrite_image]

/-- Witness for `C5_image_rewrite_cases` at `diagram.png`, with the
filename present in the map and absent from it. -/
theorem C5_image_rewrite_cases_witness :
    ("diagram.png" : String) ≠ "" ∧
    mapHasKey [("diagram.png", "attachments/diagram.png")] "diagram.png" = true ∧
    rewrite_image [("diagram.png", "attachments/diagram.png")] ⟨some (some "diagram.png")⟩
        = ImageRewrite.imageTag "attachments/diagram.png" "diagram.png" ∧
    mapHasKey [] "diagram.png" = false ∧
    rewrite_image [] ⟨some (some "diagram.png")⟩
        = ImageRewrite.literal "[Image: diagram.png]" :=
  ⟨by decide, by decide,
   (C5_image_rewrite_cases [("diagram.png", "attachments/diagram.png")] "diagram.png").1
     (by decide) (by decide),
   by decide,
   (C5_image_rewrite_cases [] "diagram.png").2.1 (by decide) (by decide)⟩

/-! ### Claim C7: first-match candidate resolution, non-fatal failure -/

/-- Claim C7: the candidate loop takes the FIRST address whose retrieval
succeeds (no exception, status 200); later candidates — whatever their
outcome — are skipped; if every candidate fails, `download_attachment`
returns `none` (Python `None`, logged as a warning) and the enclosing
attachment loop of `scrape_space` proceeds exactly as if the attachment
were not there: no file is written, no entry is added to the resolved
map, and the remaining attachments are still processed. -/
theorem C7_first_match_wins :
    (∀ pre (c : Candidate) post, (∀ c' ∈ pre, fetchOk c' = false) → fetchOk c = true →
      firstSuccess (pre ++ c :: post) = some c) ∧
    (∀ cs : List Candidate, (∀ c ∈ cs, fetchOk c = false) → firstSuccess cs = none) ∧
    (∀ (fs : List String) (j : AttachmentJob), (∀ c ∈ j.candidates, fetchOk c = false) →
      download_attachment fs j = (fs, none)) ∧
    (∀ jobs1 (j : AttachmentJob) jobs2, (∀ c ∈ j.candidates, fetchOk c = false) →
      scrape_space_attachments (jobs1 ++ j :: jobs2)
        = scrape_space_attachments (jobs1 ++ jobs2)) := by
  have hnone : ∀ cs : List Candidate, (∀ c ∈ cs, fetchOk c = false) →
      firstSuccess cs = none := by
    intro cs h
    exact List.find?_eq_none.2 (fun c hc => by simp [h c hc])
  have hdl : ∀ (fs : List String) (j : AttachmentJob),
      (∀ c ∈ j.candidates, fetchOk c = false) → download_attachment fs j = (fs, none) := by
    intro fs j h
    unfold download_attachment
    rw [hnone j.candidates h]
  refine ⟨?_, hnone, hdl, ?_⟩
  · intro pre c post hpre hc
    induction pre with
    | nil => exact List.find?_cons_of_pos _ hc
    | cons a pre ih =>
      have ha : fetchOk a = false := hpre a (by simp)
      rw [List.cons_append]
      unfold firstSuccess at ih ⊢
      rw [List.find?_cons_of_neg _ (by simp [ha])]
      exact ih (fun c' hc' => hpre c' (List.mem_cons_of_mem _ hc'))
  · intro jobs1 j jobs2 h
    unfold scrape_space_attachments
    rw [List.foldl_append, List.foldl_append, List.foldl_cons]
    have hstep : scrape_space_step (List.foldl scrape_space_step ⟨[], []⟩ jobs1) j
        = List.foldl scrape_space_step ⟨[], []⟩ jobs1 := by
      unfold scrape_space_step
      rw [hdl _ j h]
    rw [hstep]

/-- Witness for `C7_first_match_wins`: with a 404 first, a succeeding
candidate second and another succeeding candidate third, the second wins;
and a job whose candidates all fail (one raising, one 404) leaves the
attachment phase's state untouched. -/
theorem C7_first_match_wins_witness :
    (∀ c' ∈ [badCandidate], fetchOk c' = false) ∧ fetchOk okCandidate = true ∧
    firstSuccess [badCandidate, okCandidate, okCandidateLater] = some okCandidate ∧
    (∀ c ∈ failJob.candidates, fetchOk c = false) ∧
    scrape_space_attachments [failJob, logoJob] = scrape_space_attachments [logoJob] :=
  ⟨by decide, by decide,
   C7_first_match_wins.1 [badCandidate] okCandidate [okCandidateLater]
     (by decide) (by decide),
   by decide,
   C7_first_match_wins.2.2.2 [] failJob [logoJob] (by decide)⟩

/-! ### Claim C8: the content-transformation boundary never fails -/

/-- Claim C8: the content-transformation step is total: for every body —
`bodyValue` absent (`none`) or empty, or any string at all — it returns a
string result. Absent or empty content is mapped to the empty string with
a warning (the `True` flag); any other content flows through the (total,
lenient) parse/rewrite/convert stages and the cleanup, and a string is
always returned. `rs` and `mc` stand for the BeautifulSoup
rewrite-and-serialize stage and the `markdownify` conversion, both total
functions — `html.parser` never raises on malformed markup. -/
theorem C8_extraction_total (rs mc : String → String) (title : String) :
    extract_page_content rs mc title none = (title, "", true) ∧
    extract_page_content rs mc title (some "") = (title, "", true) ∧
    (∀ s, s ≠ "" → extract_page_content rs mc title (some s)
        = (title, cleanup_markdown (mc (rs s)), false)) ∧
    process_confluence_content rs "" = "" := by
  refine ⟨rfl, rfl, ?_, rfl⟩
  intro s hs
  unfold extract_page_content process_confluence_content
  simp [hs]

/-- Witness for `C8_extraction_total` with identity stages and a one-tag body. -/
theorem C8_extraction_total_witness :
    ("<p>x</p>" : String) ≠ "" ∧
    extract_page_content id id "T" (some "<p>x</p>")
      = ("T", cleanup_markdown "<p>x</p>", false) :=
  ⟨by decide, (C8_extraction_total id id "T").2.2.1 "<p>x</p>" (by decide)⟩

/-! ### Claim C9: sanitized disk name vs raw map key and reference -/

theorem string_append_left_cancel {a b c : String} (h : a ++ b = a ++ c) : b = c := by
  have hd := congrArg String.data h
  rw [String.data_append, String.data_append] at hd
  exact String.ext (List.append_cancel_left hd)

/-- Claim C9: a downloaded attachment is stored on disk under the
SANITIZED filename (`downloadFilePath`), while the resolved map is keyed
by the RAW filename and the rewritten image source is the literal
`attachments/<raw filename>`; hence the emitted reference names the file
actually on disk if and only if `clean_filename` fixes the filename. -/
theorem C9_raw_key_sanitized_disk (f : String) (m : List (String × String))
    (hne : f ≠ "") (hkey : mapHasKey m f = true) :
    downloadFilePath f = "attachments/" ++ clean_filename f ∧
    (∀ (fs : List String) (j : AttachmentJob), (firstSuccess j.candidates).isSome →
      (download_attachment fs j).2 = some (downloadFilePath j.filename)) ∧
    (∀ (st : ScrapeState) (j : AttachmentJob), (firstSuccess j.candidates).isSome →
      (scrape_space_step st j).allAttachments
        = dictInsert st.allAttachments j.filename (downloadFilePath j.filename)) ∧
    rewrite_image m ⟨some (some f)⟩ = ImageRewrite.imageTag ("attachments/" ++ f) f ∧
    ("attachments/" ++ f = downloadFilePath f ↔ clean_filename f = f) := by
  have hdl : ∀ (fs : List String) (j : AttachmentJob), (firstSuccess j.candidates).isSome →
      (download_attachment fs j).2 = some (downloadFilePath j.filename) := by
    intro fs j h
    unfold download_attachment downloadFilePath
    cases hfs : firstSuccess j.candidates with
    | none => rw [hfs] at h; simp at h
    | some c => rfl
  refine ⟨rfl, hdl, ?_, ?_, ?_⟩
  · intro st j h
    have h2 := hdl st.files j h
    simp only [scrape_space_step, h2]
  · exact (C5_image_rewrite_cases m f).1 hne hkey
  · constructor
    · intro h
      have := @string_append_left_cancel "attachments/" _ _ h.symm
      exact this
    · intro h
      unfold downloadFilePath
      rw [h]

/-! ### Claim C6: idempotence of the blank-line normalization -/

theorem has3_cons3 (a b c : Char) (t : List Char) :
    has3 (a :: b :: c :: t)
      = ((a == '\n' && b == '\n' && c == '\n') || has3 (b :: c :: t)) := rfl

theorem has3_cons_false {a : Char} {l : List Char}
    (h : has3 (a :: l) = false) : has3 l = false := by
  match l with
  | [] => rfl
  | [b] => rfl
  | b :: c :: t =>
    rw [has3_cons3] at h
    exact (Bool.or_eq_false_iff.mp h).2

theorem has3_cons_nonNL {a : Char} (l : List Char) (h : (a == '\n') = false) :
    has3 (a :: l) = has3 l := by
  match l with
  | [] => rfl
  | [b] => rfl
  | b :: c :: t =>
    rw [has3_cons3, h]
    simp

theorem has3_append_left : ∀ (xs : List Char) {ys : List Char},
    has3 (xs ++ ys) = false → has3 xs = false
  | [], _, _ => rfl
  | [_], _, _ => rfl
  | [_, _], _, _ => rfl
  | a :: b :: c :: t, ys, h => by
    rw [show (a :: b :: c :: t) ++ ys = a :: b :: c :: (t ++ ys) from rfl,
      has3_cons3] at h
    rcases Bool.or_eq_false_iff.mp h with ⟨h1, h2⟩
    rw [has3_cons3, h1]
    have h3 : has3 (b :: c :: t) = false :=
      @has3_append_left (b :: c :: t) ys h2
    rw [h3]
    rfl

theorem has3_append_right : ∀ (xs : List Char) {ys : List Char},
    has3 (xs ++ ys) = false → has3 ys = false
  | [], _, h => h
  | x :: xs, ys, h => by
    rw [List.cons_append] at h
    exact has3_append_right xs (has3_cons_false h)

theorem has3_dropWhile {p : Char → Bool} {y : List Char}
    (h : has3 y = false) : has3 (y.dropWhile p) = false := by
  apply has3_append_right (y.takeWhile p)
  rw [List.takeWhile_append_dropWhile]
  exact h

theorem has3_dropTrailing {p : Char → Bool} {y : List Char}
    (h : has3 y = false) : has3 (dropTrailing p y) = false := by
  rcases dropTrailing_append p y with ⟨post, hp⟩
  rw [hp] at h
  exact has3_append_left _ h

theorem has3_stripPy {s : List Char} (h : has3 s = false) :
    has3 (stripPy s) = false :=
  has3_dropTrailing (has3_dropWhile h)

/-- The collapse loop never emits a run of 3 newlines, even merged with
the two previously emitted characters. -/
theorem collapseNLAux_no3 : ∀ (s : List Char) (p2 p1 : Char),
    has3 (p2 :: p1 :: collapseNLAux p2 p1 s) = false
  | [], _, _ => rfl
  | c :: rest, p2, p1 => by
    by_cases hc : (p2 == '\n' && p1 == '\n' && c == '\n') = true
    · rw [show collapseNLAux p2 p1 (c :: rest) = collapseNLAux p2 p1 rest from by
        simp [collapseNLAux, hc]]
      exact collapseNLAux_no3 rest p2 p1
    · have hc' : (p2 == '\n' && p1 == '\n' && c == '\n') = false := by
        simpa using hc
      rw [show collapseNLAux p2 p1 (c :: rest) = c :: collapseNLAux p1 c rest from by
        simp [collapseNLAux, hc']]
      rw [has3_cons3, hc']
      have h2 := collapseNLAux_no3 rest p1 c
      rw [h2]
      rfl

/-- The collapse loop is the identity on content with no 3-newline run. -/
theorem collapseNLAux_id : ∀ (s : List Char) (p2 p1 : Char),
    has3 (p2 :: p1 :: s) = false → collapseNLAux p2 p1 s = s
  | [], _, _, _ => rfl
  | c :: rest, p2, p1, h => by
    rw [has3_cons3] at h
    rcases Bool.or_eq_false_iff.mp h with ⟨h1, h2⟩
    rw [show collapseNLAux p2 p1 (c :: rest) = c :: collapseNLAux p1 c rest from by
      simp [collapseNLAux, h1]]
    rw [collapseNLAux_id rest p1 c h2]

theorem collapseNL_no3 (s : List Char) : has3 (collapseNL s) = false := by
  have h := collapseNLAux_no3 s 'x' 'x'
  rw [has3_cons_nonNL _ (by decide), has3_cons_nonNL _ (by decide)] at h
  exact h

theorem collapseNL_id {s : List Char} (h : has3 s = false) : collapseNL s = s := by
  apply collapseNLAux_id
  rw [has3_cons_nonNL _ (by decide), has3_cons_nonNL _ (by decide)]
  exact h

theorem dropTrailing_idem (p : Char → Bool) : ∀ s : List Char,
    dropTrailing p (dropTrailing p s) = dropTrailing p s
  | [] => rfl
  | c :: rest => by
    have ih := dropTrailing_idem p rest
    have he : dropTrailing p (c :: rest)
        = if (dropTrailing p rest).isEmpty && p c then []
          else c :: dropTrailing p rest := rfl
    by_cases hcond : (dropTrailing p rest).isEmpty && p c
    · rw [he, if_pos hcond]
      rfl
    · rw [he, if_neg hcond]
      have he2 : dropTrailing p (c :: dropTrailing p rest)
          = if (dropTrailing p (dropTrailing p rest)).isEmpty && p c then []
            else c :: dropTrailing p (dropTrailing p rest) := rfl
      rw [he2, ih, if_neg hcond]

theorem stripPy_idem (s : List Char) : stripPy (stripPy s) = stripPy s := by
  unfold stripPy
  rcases dropWhile_head isPySpace s with hy | ⟨c, y', hy, hc⟩
  · rw [hy]
    rfl
  · rw [hy]
    rcases dropTrailing_head isPySpace c y' with hz | ⟨t, hz⟩
    · rw [hz]
      rfl
    · rw [hz, List.dropWhile_cons_of_neg (by simp [hc]), ← hz]
      exact dropTrailing_idem isPySpace (c :: y')

/-- Claim C6, counterexample: the Markdown exporter's cleanup is NOT a
fixed point of itself on all of its own outputs. On `"a\n\n\\nb"` (a body
with two real newlines followed by a literal backslash-n), the `\\n`
substitution — which runs AFTER the blank-line collapse — manufactures a
run of three newlines, so the output `"a\n\n\nb"` still contains a
3-newline run and a second cleanup pass collapses it. -/
theorem C6_md_cleanup_not_idempotent_cex :
    cleanup_markdown "a\n\n\\nb" = "a\n\n\nb" ∧
    cleanup_markdown (cleanup_markdown "a\n\n\\nb") = "a\n\nb" ∧
    cleanup_markdown (cleanup_markdown "a\n\n\\nb") ≠ cleanup_markdown "a\n\n\\nb" := by
  refine ⟨by decide, by decide, by decide⟩

/-- Claim C6, amended: the normalization pass as specified — collapse runs
of 3 or more newlines to a blank line, then trim surrounding whitespace —
IS idempotent on every string; this is exactly the CSV exporter's cleanup.
The Markdown exporter's cleanup, however, interposes the `\\n`-to-newline
substitution after collapsing, which can create fresh 3-newline runs, so
its outputs are not always fixed points (see the counterexample). -/
theorem C6_normalization_idempotent (s : String) :
    cleanup_markdown_csv (cleanup_markdown_csv s) = cleanup_markdown_csv s := by
  apply String.ext
  show stripPy (collapseNL (stripPy (collapseNL s.data)))
      = stripPy (collapseNL s.data)
  have h1 : has3 (collapseNL s.data) = false := collapseNL_no3 _
  have h2 : has3 (stripPy (collapseNL s.data)) = false := has3_stripPy h1
  rw [collapseNL_id h2]
  exact stripPy_idem _

/-- Witness for `C9_raw_key_sanitized_disk` on the raw filename
`my logo.png` (sanitized to `my_logo.png`): the map key stays raw, the
disk name is sanitized, and the emitted reference does not match the disk
file precisely because sanitization changes this name. -/
theorem C9_raw_key_sanitized_disk_witness :
    ("my logo.png" : String) ≠ "" ∧
    mapHasKey [("my logo.png", "attachments/my_logo.png")] "my logo.png" = true ∧
    downloadFilePath "my logo.png" = "attachments/" ++ clean_filename "my logo.png" ∧
    rewrite_image [("my logo.png", "attachments/my_logo.png")] ⟨some (some "my logo.png")⟩
        = ImageRewrite.imageTag ("attachments/" ++ "my logo.png") "my logo.png" ∧
    ("attachments/" ++ "my logo.png" = downloadFilePath "my logo.png" ↔
      clean_filename "my logo.png" = "my logo.png") := by
  have h := C9_raw_key_sanitized_disk "my logo.png"
    [("my logo.png", "attachments/my_logo.png")] (by decide) (by decide)
  exact ⟨by decide, by decide, h.1, h.2.2.2.1, h.2.2.2.2⟩

/-! ### Claim C3: dangling ancestors -/

/-- Claim C3: for a document whose ancestor list contains exactly one id
absent from the in-memory document set, `build_hierarchy`'s loop body
produces the titles of the found ancestors (root-first, in the given
order) followed by the document's own title; the path length equals the
UNFILTERED ancestor count, which is what `level` is set to; dangling ids
are silently skipped (the builder is total, never fatal). -/
theorem C3_dangling_ancestor (ids : List String) (p : Page)
    (h : (p.ancestors.filter (fun a => !(ids.contains a.id))).length = 1) :
    (build_entry ids p).path
        = (p.ancestors.filter (fun a => ids.contains a.id)).map (fun a => a.title)
          ++ [p.title] ∧
    (build_entry ids p).path.length = (build_entry ids p).level ∧
    (build_entry ids p).level = p.ancestors.length := by
  refine ⟨rfl, ?_, rfl⟩
  show ((p.ancestors.filter (fun a => ids.contains a.id)).map (fun a => a.title)
      ++ [p.title]).length = p.ancestors.length
  have hsplit : p.ancestors.length
      = (p.ancestors.filter (fun a => ids.contains a.id)).length
        + (p.ancestors.filter (fun a => !(ids.contains a.id))).length := by
    simpa using
      @List.length_eq_length_filter_add _ p.ancestors (fun a => ids.contains a.id)
  simp only [List.length_append, List.length_map, List.length_singleton]
  omega

/-- Witness for `C3_dangling_ancestor`: `danglingPage` in the document set
`[rootPage, danglingPage]` has exactly one dangling ancestor, path
`["Root", "Lost Child"]` of length 2, and depth 2. -/
theorem C3_dangling_ancestor_witness :
    (danglingPage.ancestors.filter
        (fun a => !((pageIds [rootPage, danglingPage]).contains a.id))).length = 1 ∧
    ((build_entry (pageIds [rootPage, danglingPage]) danglingPage).path
        = (danglingPage.ancestors.filter
            (fun a => (pageIds [rootPage, danglingPage]).contains a.id)).map
              (fun a => a.title) ++ [danglingPage.title] ∧
     (build_entry (pageIds [rootPage, danglingPage]) danglingPage).path.length
        = (build_entry (pageIds [rootPage, danglingPage]) danglingPage).level ∧
     (build_entry (pageIds [rootPage, danglingPage]) danglingPage).level
        = danglingPage.ancestors.length) :=
  ⟨by decide, C3_dangling_ancestor (pageIds [rootPage, danglingPage]) danglingPage (by decide)⟩

/-! ### Claim C4: the global `(depth, path)` ordering
Order-theoretic facts about the Python comparison chain: characters by
code point, strings lexicographically, string lists lexicographically,
and the `(level, path)` tuple lexicographically. -/

theorem charLtB_irrefl (a : Char) : charLtB a a = false := by
  simp [charLtB]

theorem charLtB_asymm {a b : Char} (h : charLtB a b = true) : charLtB b a = false := by
  simp [charLtB] at *
  omega

theorem charLtB_trans {a b c : Char} (h1 : charLtB a b = true)
    (h2 : charLtB b c = true) : charLtB a c = true := by
  simp [charLtB] at *
  omega

theorem char_eq_of_not_lt {a b : Char} (h1 : charLtB a b = false)
    (h2 : charLtB b a = false) : a = b := by
  simp [charLtB] at h1 h2
  exact Char.eq_of_val_eq (UInt32.ext (le_antisymm h2 h1))

theorem strLtL_cons (a b : Char) (as bs : List Char) :
    strLtL (a :: as) (b :: bs)
      = if charLtB a b then true
        else if charLtB b a then false
        else strLtL as bs := rfl

theorem strLtL_irrefl : ∀ l : List Char, strLtL l l = false
  | [] => rfl
  | a :: as => by
    rw [strLtL_cons, charLtB_irrefl]
    simpa using strLtL_irrefl as

theorem strLtL_asymm : ∀ {a b : List Char}, strLtL a b = true → strLtL b a = false
  | [], [], h => by simp [strLtL] at h
  | [], _ :: _, _ => rfl
  | _ :: _, [], h => by simp [strLtL] at h
  | a :: as, b :: bs, h => by
    rw [strLtL_cons] at h ⊢
    by_cases hab : charLtB a b = true
    · rw [charLtB_asymm hab, hab]
      simp
    · have hab' : charLtB a b = false := by simpa using hab
      by_cases hba : charLtB b a = true
      · rw [hab', hba] at h
        simp at h
      · have hba' : charLtB b a = false := by simpa using hba
        rw [hab', hba'] at h
        rw [hba', hab']
        simpa using strLtL_asymm (by simpa using h)

theorem strLtL_eq_of_not : ∀ {a b : List Char},
    strLtL a b = false → strLtL b a = false → a = b
  | [], [], _, _ => rfl
  | [], _ :: _, h1, _ => by simp [strLtL] at h1
  | _ :: _, [], _, h2 => by simp [strLtL] at h2
  | a :: as, b :: bs, h1, h2 => by
    rw [strLtL_cons] at h1 h2
    by_cases hab : charLtB a b = true
    · rw [hab] at h1; simp at h1
    · have hab' : charLtB a b = false := by simpa using hab
      by_cases hba : charLtB b a = true
      · rw [hba] at h2; simp at h2
      · have hba' : charLtB b a = false := by simpa using hba
        rw [hab', hba'] at h1 h2
        simp only [Bool.false_eq_true, if_false] at h1 h2
        have hhead := char_eq_of_not_lt hab' hba'
        have htail := strLtL_eq_of_not (by simpa using h1) (by simpa using h2)
        rw [hhead, htail]

theorem strLtL_trans : ∀ {a b c : List Char},
    strLtL a b = true → strLtL b c = true → strLtL a c = true
  | [], [], _, h1, _ => by simp [strLtL] at h1
  | [], _ :: _, [], _, h2 => by simp [strLtL] at h2
  | [], _ :: _, _ :: _, _, _ => rfl
  | _ :: _, [], _, h1, _ => by simp [strLtL] at h1
  | _ :: _, _ :: _, [], _, h2 => by simp [strLtL] at h2
  | a :: as, b :: bs, c :: cs, h1, h2 => by
    rw [strLtL_cons] at h1 h2 ⊢
    by_cases hab : charLtB a b = true
    · by_cases hbc : charLtB b c = true
      · rw [charLtB_trans hab hbc]
        simp
      · have hbc' : charLtB b c = false := by simpa using hbc
        by_cases hcb : charLtB c b = true
        · rw [hbc', hcb] at h2
          simp at h2
        · have hcb' : charLtB c b = false := by simpa using hcb
          rw [char_eq_of_not_lt hbc' hcb'] at hab
          rw [hab]
          simp
    · have hab' : charLtB a b = false := by simpa using hab
      by_cases hba : charLtB b a = true
      · rw [hab', hba] at h1
        simp at h1
      · have hba' : charLtB b a = false := by simpa using hba
        have hheq := char_eq_of_not_lt hab' hba'
        subst hheq
        rw [hab'] at h1
        simp only [Bool.false_eq_true, if_false] at h1
        by_cases hbc : charLtB a c = true
        · rw [hbc]
          simp
        · have hbc' : charLtB a c = false := by simpa using hbc
          by_cases hcb : charLtB c a = true
          · rw [hbc', hcb] at h2
            simp at h2
          · have hcb' : charLtB c a = false := by simpa using hcb
            rw [hbc', hcb'] at h2 ⊢
            simp only [Bool.false_eq_true, if_false] at h2 ⊢
            exact strLtL_trans h1 h2

theorem strLt_asymm {a b : String} (h : strLt a b = true) : strLt b a = false :=
  strLtL_asymm h

theorem strLt_trans {a b c : String} (h1 : strLt a b = true)
    (h2 : strLt b c = true) : strLt a c = true :=
  strLtL_trans h1 h2

theorem strLt_eq_of_not {a b : String} (h1 : strLt a b = false)
    (h2 : strLt b a = false) : a = b :=
  String.ext (strLtL_eq_of_not h1 h2)

theorem pathLeB_cons (a b : String) (as bs : List String) :
    pathLeB (a :: as) (b :: bs)
      = if strLt a b then true
        else if strLt b a then false
        else pathLeB as bs := rfl

theorem pathLeB_total : ∀ a b : List String, pathLeB a b = true ∨ pathLeB b a = true
  | [], _ => Or.inl rfl
  | _ :: _, [] => Or.inr rfl
  | a :: as, b :: bs => by
    rw [pathLeB_cons, pathLeB_cons]
    by_cases hab : strLt a b = true
    · left; rw [hab]; simp
    · have hab' : strLt a b = false := by simpa using hab
      by_cases hba : strLt b a = true
      · right; rw [hba]; simp
      · have hba' : strLt b a = false := by simpa using hba
        rw [hab', hba']
        simp only [Bool.false_eq_true, if_false]
        exact pathLeB_total as bs

theorem pathLeB_antisymm : ∀ {a b : List String},
    pathLeB a b = true → pathLeB b a = true → a = b
  | [], [], _, _ => rfl
  | [], _ :: _, _, h2 => by simp [pathLeB] at h2
  | _ :: _, [], h1, _ => by simp [pathLeB] at h1
  | a :: as, b :: bs, h1, h2 => by
    rw [pathLeB_cons] at h1 h2
    by_cases hab : strLt a b = true
    · rw [strLt_asymm hab, hab] at h2
      simp at h2
    · have hab' : strLt a b = false := by simpa using hab
      by_cases hba : strLt b a = true
      · rw [hab', hba] at h1
        simp at h1
      · have hba' : strLt b a = false := by simpa using hba
        rw [hab', hba'] at h1 h2
        simp only [Bool.false_eq_true, if_false] at h1 h2
        rw [strLt_eq_of_not hab' hba', pathLeB_antisymm h1 h2]

theorem pathLeB_trans : ∀ {a b c : List String},
    pathLeB a b = true → pathLeB b c = true → pathLeB a c = true
  | [], _, _, _, _ => rfl
  | _ :: _, [], _, h1, _ => by simp [pathLeB] at h1
  | _ :: _, _ :: _, [], _, h2 => by simp [pathLeB] at h2
  | a :: as, b :: bs, c :: cs, h1, h2 => by
    rw [pathLeB_cons] at h1 h2 ⊢
    by_cases hab : strLt a b = true
    · by_cases hbc : strLt b c = true
      · rw [strLt_trans hab hbc]
        simp
      · have hbc' : strLt b c = false := by simpa using hbc
        by_cases hcb : strLt c b = true
        · rw [hbc', hcb] at h2
          simp at h2
        · have hcb' : strLt c b = false := by simpa using hcb
          rw [strLt_eq_of_not hbc' hcb'] at hab
          rw [hab]
          simp
    · have hab' : strLt a b = false := by simpa using hab
      by_cases hba : strLt b a = true
      · rw [hab', hba] at h1
        simp at h1
      · have hba' : strLt b a = false := by simpa using hba
        have hheq := strLt_eq_of_not hab' hba'
        subst hheq
        rw [hab'] at h1
        simp only [Bool.false_eq_true, if_false] at h1
        by_cases hac : strLt a c = true
        · rw [hac]
          simp
        · have hac' : strLt a c = false := by simpa using hac
          by_cases hca : strLt c a = true
          · rw [hac', hca] at h2
            simp at h2
          · have hca' : strLt c a = false := by simpa using hca
            rw [hac', hca'] at h2 ⊢
            simp only [Bool.false_eq_true, if_false] at h2 ⊢
            exact pathLeB_trans h1 h2

theorem keyLe_total (k1 k2 : Nat × List String) :
    keyLe k1 k2 = true ∨ keyLe k2 k1 = true := by
  unfold keyLe
  rcases Nat.lt_trichotomy k1.1 k2.1 with h | h | h
  · left
    rw [if_pos h]
  · rw [h]
    simp only [lt_irrefl, if_false]
    exact pathLeB_total k1.2 k2.2
  · right
    rw [if_pos h]

theorem keyLe_trans (k1 k2 k3 : Nat × List String) (h1 : keyLe k1 k2 = true)
    (h2 : keyLe k2 k3 = true) : keyLe k1 k3 = true := by
  unfold keyLe at *
  split_ifs at h1 h2 ⊢ with ha hb hc hd he hf <;>
    first
      | rfl
      | omega
      | exact pathLeB_trans h1 h2

theorem keyLe_antisymm (k1 k2 : Nat × List String) (h1 : keyLe k1 k2 = true)
    (h2 : keyLe k2 k1 = true) : k1 = k2 := by
  obtain ⟨n1, l1⟩ := k1
  obtain ⟨n2, l2⟩ := k2
  unfold keyLe at h1 h2
  simp only at h1 h2
  by_cases hn : n1 = n2
  · subst hn
    simp only [lt_irrefl, if_false] at h1 h2
    rw [pathLeB_antisymm h1 h2]
  · exfalso
    rcases Nat.lt_trichotomy n1 n2 with h | h | h
    · rw [if_neg (by omega), if_pos h] at h2
      simp at h2
    · exact hn h
    · rw [if_neg (by omega), if_pos h] at h1
      simp at h1

/-! Facts about the Python-dict model, and determinism of the sort. -/

theorem dictInsert_of_not_mem {α : Type} {m : List (String × α)} {k : String} (v : α)
    (h : k ∉ m.map Prod.fst) : dictInsert m k v = m ++ [(k, v)] := by
  have hcond : m.any (fun q => q.1 == k) = false := by
    rw [Bool.eq_false_iff]
    intro hc
    rcases List.any_eq_true.mp hc with ⟨q, hq, hqe⟩
    have hqk : q.1 = k := by simpa using hqe
    exact h (List.mem_map.mpr ⟨q, hq, hqk⟩)
  unfold dictInsert
  rw [hcond]
  simp

theorem foldl_dictInsert_nodup {α : Type} :
    ∀ (l acc : List (String × α)),
      ((acc.map Prod.fst) ++ (l.map Prod.fst)).Nodup →
      l.foldl (fun m q => dictInsert m q.1 q.2) acc = acc ++ l
  | [], acc, _ => by simp
  | q :: rest, acc, h => by
    obtain ⟨k, v⟩ := q
    simp only [List.map_cons] at h
    have hk : k ∉ acc.map Prod.fst := by
      rcases List.nodup_append.mp h with ⟨_, _, hdisj⟩
      intro hmem
      exact hdisj hmem (by simp)
    rw [List.foldl_cons]
    show List.foldl (fun m q => dictInsert m q.1 q.2) (dictInsert acc k v) rest
        = acc ++ (k, v) :: rest
    rw [dictInsert_of_not_mem v hk]
    have h2 : (((acc ++ [(k, v)]).map Prod.fst) ++ (rest.map Prod.fst)).Nodup := by
      simp only [List.map_append, List.map_cons, List.map_nil, List.append_assoc,
        List.singleton_append]
      simpa using h
    rw [foldl_dictInsert_nodup rest (acc ++ [(k, v)]) h2]
    simp

theorem dictOfList_eq_self {α : Type} (l : List (String × α))
    (h : (l.map Prod.fst).Nodup) : dictOfList l = l := by
  have hfold := foldl_dictInsert_nodup l [] (by simpa using h)
  simpa [dictOfList] using hfold

theorem build_hierarchy_eq {pages : List Page} (h : (pageIds pages).Nodup) :
    build_hierarchy pages
      = pages.map (fun p => (p.id, build_entry (pageIds pages) p)) := by
  unfold build_hierarchy
  apply dictOfList_eq_self
  have hkeys : (pages.map (fun p => (p.id, build_entry (pageIds pages) p))).map Prod.fst
      = pageIds pages := by
    simp [pageIds, List.map_map, Function.comp]
  rw [hkeys]
  exact h

theorem contains_of_perm {l1 l2 : List String} (h : l1.Perm l2) (x : String) :
    l1.contains x = l2.contains x := by
  by_cases hx : x ∈ l1
  · have h1 : l1.contains x = true := List.elem_iff.mpr hx
    have h2 : l2.contains x = true := List.elem_iff.mpr (h.mem_iff.mp hx)
    rw [h1, h2]
  · have h1 : l1.contains x = false := by
      rw [Bool.eq_false_iff]
      intro hc
      exact hx (List.elem_iff.mp hc)
    have h2 : l2.contains x = false := by
      rw [Bool.eq_false_iff]
      intro hc
      exact hx (h.mem_iff.mpr (List.elem_iff.mp hc))
    rw [h1, h2]

theorem build_entry_congr {ids1 ids2 : List String} (h : ids1.Perm ids2) (p : Page) :
    build_entry ids1 p = build_entry ids2 p := by
  unfold build_entry
  have hf : p.ancestors.filter (fun a => ids1.contains a.id)
      = p.ancestors.filter (fun a => ids2.contains a.id) :=
    List.filter_congr (fun a _ => contains_of_perm h a.id)
  rw [hf]

/-- The sequence of sort keys produced by the sorted walk is the same for
any two arrival orders of the same document set (with distinct ids). -/
theorem sorted_pages_key_deterministic {p1 p2 : List Page}
    (hnd : (pageIds p1).Nodup) (hperm : p1.Perm p2) :
    (sorted_pages p1).map entryKey = (sorted_pages p2).map entryKey := by
  haveI : IsTotal HEntry entryLe := ⟨fun a b => keyLe_total _ _⟩
  haveI : IsTrans HEntry entryLe := ⟨fun a b c => keyLe_trans _ _ _⟩
  have hidperm : (pageIds p1).Perm (pageIds p2) := hperm.map _
  have hnd2 : (pageIds p2).Nodup := (hidperm.nodup_iff).mp hnd
  have hv1 : (build_hierarchy p1).map (fun q => q.2)
      = p1.map (build_entry (pageIds p1)) := by
    rw [build_hierarchy_eq hnd]
    simp [List.map_map, Function.comp]
  have hv2 : (build_hierarchy p2).map (fun q => q.2)
      = p2.map (build_entry (pageIds p2)) := by
    rw [build_hierarchy_eq hnd2]
    simp [List.map_map, Function.comp]
  have hvperm : ((build_hierarchy p1).map (fun q => q.2)).Perm
      ((build_hierarchy p2).map (fun q => q.2)) := by
    rw [hv1, hv2]
    have hfe : p1.map (build_entry (pageIds p1)) = p1.map (build_entry (pageIds p2)) :=
      List.map_congr_left (fun p _ => build_entry_congr hidperm p)
    rw [hfe]
    exact hperm.map _
  have hs1 : (sorted_pages p1).Perm ((build_hierarchy p1).map (fun q => q.2)) :=
    List.perm_insertionSort _ _
  have hs2 : (sorted_pages p2).Perm ((build_hierarchy p2).map (fun q => q.2)) :=
    List.perm_insertionSort _ _
  have hk : ((sorted_pages p1).map entryKey).Perm ((sorted_pages p2).map entryKey) :=
    (hs1.trans (hvperm.trans hs2.symm)).map _
  have hsort1 : List.Sorted entryLe (sorted_pages p1) := List.sorted_insertionSort _ _
  have hsort2 : List.Sorted entryLe (sorted_pages p2) := List.sorted_insertionSort _ _
  have hmap1 : List.Sorted (fun k1 k2 => keyLe k1 k2 = true)
      ((sorted_pages p1).map entryKey) :=
    List.Pairwise.map entryKey (fun a b hab => hab) hsort1
  have hmap2 : List.Sorted (fun k1 k2 => keyLe k1 k2 = true)
      ((sorted_pages p2).map entryKey) :=
    List.Pairwise.map entryKey (fun a b hab => hab) hsort2
  haveI : IsAntisymm (Nat × List String) (fun k1 k2 => keyLe k1 k2 = true) :=
    ⟨fun a b => keyLe_antisymm a b⟩
  exact List.eq_of_perm_of_sorted hk hmap1 hmap2

/-- Claim C4: the sort key comparison `(depth, path)` — numeric on depth,
lexicographic on the path's titles — is a total order (total, transitive,
antisymmetric on keys); the sequence of keys of the sorted walk does not
depend on the arrival order of the documents (for a corpus with distinct
ids, as Confluence guarantees); and on the three-document demo set the
generated index orders Root, Child, Grandchild with depths 0, 1, 2 and
two-space indentation equal to the depth. -/
theorem C4_global_ordering_deterministic :
    (∀ k1 k2 : Nat × List String, keyLe k1 k2 = true ∨ keyLe k2 k1 = true) ∧
    (∀ k1 k2 k3 : Nat × List String,
      keyLe k1 k2 = true → keyLe k2 k3 = true → keyLe k1 k3 = true) ∧
    (∀ k1 k2 : Nat × List String, keyLe k1 k2 = true → keyLe k2 k1 = true → k1 = k2) ∧
    (∀ p1 p2 : List Page, (pageIds p1).Nodup → p1.Perm p2 →
      (sorted_pages p1).map entryKey = (sorted_pages p2).map entryKey) ∧
    ((sorted_pages demoArrivalA).map (fun e => e.page.title)
        = ["Root", "Child", "Grandchild"] ∧
     (sorted_pages demoArrivalA).map (fun e => e.level) = [0, 1, 2] ∧
     space_index_lines demoArrivalA
        = ["- [Root](./Root.md)",
           "  - [Child](./Root/Child.md)",
           "    - [Grandchild](./Root/Child/Grandchild.md)"]) := by
  refine ⟨keyLe_total, keyLe_trans, keyLe_antisymm,
    fun p1 p2 hnd hperm => sorted_pages_key_deterministic hnd hperm,
    by decide, by decide, by decide⟩

/-- Witness for `C4_global_ordering_deterministic`: the two demo arrival
orders are permutations of each other with distinct ids, and produce the
same key sequence. -/
theorem C4_global_ordering_deterministic_witness :
    (pageIds demoArrivalA).Nodup ∧ demoArrivalA.Perm demoArrivalB ∧
    (sorted_pages demoArrivalA).map entryKey
      = (sorted_pages demoArrivalB).map entryKey :=
  ⟨by decide, by decide,
   C4_global_ordering_deterministic.2.2.2.1 demoArrivalA demoArrivalB
     (by decide) (by decide)⟩

end Confluence
